import Mathlib

/-!
# Verification of the sbtc chain-interaction core

Shallow embedding of three source files of the `sbtc` repository:

* `sbtc-core/src/operations/construction/utils.rs` — `reorder_outputs`;
* `romeo/src/bitcoin_client.rs` — `Client::new`, `get_tx_status`, `get_block`;
* `stacks-core/src/address.rs` — `StacksAddress::from_public_keys` and the
  script-hash derivations, in particular `hash_p2wsh`.

Machine integers (`usize`, `u8`, `u64`, `u32`) are embedded as `Nat` with
explicit `% 2 ^ w` at the points where the Rust code casts or could wrap.
Byte strings are `List Nat`.  External collaborators (the SHA-256 and
RIPEMD-160 primitives, the bitcoin script `Builder`, the `url` crate's
parsed-URL view) are passed in as explicit function/structure parameters.
-/

/-! ## Output reordering (`sbtc-core/src/operations/construction/utils.rs`)

`reorder_outputs` builds a `HashMap<(Script, u64), usize>` from the declared
ordering (`enumerate`; on duplicate pairs the later insertion overwrites the
earlier, so the *last* declared occurrence wins), assigns every produced
output the index of its matching pair — or `usize::MAX` when unmatched — and
collects the `(index, txout)` pairs into a `BTreeMap<usize, TxOut>` (again
later insertions overwrite earlier ones on key collision), finally returning
the values in ascending key order. -/

/-- Bitcoin `Script` bytes (`script_pubkey`). -/
abbrev Script := List Nat

/-- `bitcoin::TxOut`: the fields `reorder_outputs` reads. -/
structure TxOut where
  script_pubkey : Script
  value : Nat
  deriving DecidableEq, Repr

/-- `usize::MAX` on a 64-bit target: the sentinel index the source assigns to
unmatched (change) outputs. -/
def USIZE_MAX : Nat := 2 ^ 64 - 1

/-- Index of the last occurrence of `k` in `l`, offset by `base`.  Models the
value stored under key `k` by `HashMap::collect` over `l.enumerate`, where
later insertions overwrite earlier ones. -/
def lastIdxAux (k : Script × Nat) (base : Nat) : List (Script × Nat) → Option Nat
  | [] => none
  | x :: rest =>
    match lastIdxAux k (base + 1) rest with
    | some i => some i
    | none => if x = k then some base else none

/-- `indices.get(&key)`: the declared index of a `(script, amount)` pair
(last declared occurrence wins, per `HashMap` collect semantics). -/
def indicesGet (order : List (Script × Nat)) (k : Script × Nat) : Option Nat :=
  lastIdxAux k 0 order

/-- The index `reorder_outputs` assigns to an output:
`indices.get(&(script_pubkey, value)).unwrap_or(&usize::MAX)`. -/
def assignIdx (order : List (Script × Nat)) (t : TxOut) : Nat :=
  (indicesGet order (t.script_pubkey, t.value)).getD USIZE_MAX

/-- `BTreeMap::insert` on a strictly-key-sorted association list: replaces the
entry when the key is present, otherwise inserts in order. -/
def btInsert {α : Type} (k : Nat) (v : α) : List (Nat × α) → List (Nat × α)
  | [] => [(k, v)]
  | (k', v') :: rest =>
    if k < k' then (k, v) :: (k', v') :: rest
    else if k = k' then (k, v) :: rest
    else (k', v') :: btInsert k v rest

/-- `BTreeMap::from_iter`: insert every pair left to right (later pairs with
an equal key overwrite earlier ones). -/
def btFromList {α : Type} (l : List (Nat × α)) : List (Nat × α) :=
  l.foldl (fun m p => btInsert p.1 p.2 m) []

/-- `reorder_outputs` from
`sbtc-core/src/operations/construction/utils.rs:47-70`. -/
def reorder_outputs (outputs : List TxOut) (order : List (Script × Nat)) :
    List TxOut :=
  (btFromList (outputs.map (fun txout => (assignIdx order txout, txout)))).map
    Prod.snd

/-! ### Association-list lemmas for the `BTreeMap` model -/

/-- First-match lookup in an association list; on the strictly-sorted lists
`btFromList` produces it is the unique match. -/
def btLookup {α : Type} (l : List (Nat × α)) (k : Nat) : Option α :=
  match l with
  | [] => none
  | p :: rest => if p.1 = k then some p.2 else btLookup rest k

/-- The value stored last under key `k` while folding `l` into a map. -/
def lastVal {α : Type} (k : Nat) : List (Nat × α) → Option α
  | [] => none
  | p :: rest =>
    match lastVal k rest with
    | some v => some v
    | none => if p.1 = k then some p.2 else none

theorem btLookup_btInsert {α : Type} (k : Nat) (v : α) (m : List (Nat × α))
    (k' : Nat) :
    btLookup (btInsert k v m) k' = if k = k' then some v else btLookup m k' := by
  induction m with
  | nil => by_cases h : k = k' <;> simp [btInsert, btLookup, h]
  | cons p rest ih =>
    rcases Nat.lt_trichotomy k p.1 with h1 | h1 | h1
    · by_cases h : k = k'
      · subst h
        simp [btInsert, btLookup, h1]
      · simp [btInsert, btLookup, h1, h]
    · have h1' : ¬ k < p.1 := by omega
      by_cases h : k = k'
      · subst h
        simp [btInsert, btLookup, h1', h1]
      · have hp : ¬ p.1 = k' := by omega
        simp [btInsert, btLookup, h1', h1, h, hp]
    · have h1' : ¬ k < p.1 := by omega
      have h2 : ¬ k = p.1 := by omega
      by_cases hp : p.1 = k'
      · have hk : ¬ k = k' := by omega
        have hk2 : ¬ k < k' := by omega
        simp [btInsert, btLookup, h1', h2, hp, hk, hk2, ih]
      · simp [btInsert, btLookup, h1', h2, hp, ih]

theorem btLookup_foldl {α : Type} (l : List (Nat × α)) (acc : List (Nat × α))
    (k : Nat) :
    btLookup (l.foldl (fun m p => btInsert p.1 p.2 m) acc) k =
      match lastVal k l with
      | some v => some v
      | none => btLookup acc k := by
  induction l generalizing acc with
  | nil => simp [lastVal]
  | cons p rest ih =>
    simp only [List.foldl_cons, lastVal]
    rw [ih]
    cases hrest : lastVal k rest with
    | some v => simp
    | none =>
      simp only
      rw [btLookup_btInsert]
      by_cases h : p.1 = k <;> simp [h]

/-- Lookup in the collected `BTreeMap` returns the last value inserted for the
key, mirroring insertion overwrite. -/
theorem btLookup_btFromList {α : Type} (l : List (Nat × α)) (k : Nat) :
    btLookup (btFromList l) k =
      match lastVal k l with
      | some v => some v
      | none => none := by
  simpa [btFromList] using btLookup_foldl l [] k

/-- Every entry of `btInsert k v m` is `(k, v)` or an entry of `m`. -/
theorem btInsert_subset {α : Type} (k : Nat) (v : α) (m : List (Nat × α)) :
    btInsert k v m ⊆ (k, v) :: m := by
  induction m with
  | nil => simp [btInsert]
  | cons p rest ih =>
    intro q hq
    by_cases h1 : k < p.1
    · simpa [btInsert, h1] using hq
    · by_cases h2 : k = p.1
      · rcases List.mem_cons.mp (by simpa [btInsert, h1, h2] using hq) with h | h
        · exact List.mem_cons.mpr (Or.inl (by rw [h, h2]))
        · exact List.mem_cons.mpr (Or.inr (List.mem_cons.mpr (Or.inr h)))
      · rcases List.mem_cons.mp (by simpa [btInsert, h1, h2] using hq) with h | h
        · exact List.mem_cons.mpr (Or.inr (List.mem_cons.mpr (Or.inl h)))
        · rcases List.mem_cons.mp (ih h) with h' | h'
          · exact List.mem_cons.mpr (Or.inl h')
          · exact List.mem_cons.mpr (Or.inr (List.mem_cons.mpr (Or.inr h')))

/-- `btInsert` keeps the key list strictly sorted. -/
theorem btInsert_sorted {α : Type} (k : Nat) (v : α) (m : List (Nat × α))
    (hm : m.Pairwise (fun p q => p.1 < q.1)) :
    (btInsert k v m).Pairwise (fun p q => p.1 < q.1) := by
  induction m with
  | nil => simp [btInsert]
  | cons p rest ih =>
    rcases List.pairwise_cons.mp hm with ⟨hp, hrest⟩
    rcases Nat.lt_trichotomy k p.1 with h1 | h1 | h1
    · have h2 : ∀ q ∈ p :: rest, (k, v).1 < q.1 := by
        intro q hq
        rcases List.mem_cons.mp hq with h | h
        · rw [h]
          exact h1
        · exact Nat.lt_trans h1 (hp q h)
      simp only [btInsert, if_pos h1]
      exact List.pairwise_cons.mpr ⟨h2, hm⟩
    · have h1' : ¬ k < p.1 := by omega
      simp only [btInsert, if_neg h1', if_pos h1]
      refine List.pairwise_cons.mpr ⟨?_, hrest⟩
      intro q hq
      have := hp q hq
      simpa [h1] using this
    · have h1' : ¬ k < p.1 := by omega
      have h2 : ¬ k = p.1 := by omega
      simp only [btInsert, if_neg h1', if_neg h2]
      refine List.pairwise_cons.mpr ⟨?_, ih hrest⟩
      intro q hq
      rcases List.mem_cons.mp ((btInsert_subset k v rest) hq) with h | h
      · rw [h]
        exact h1
      · exact hp q h

/-- Folding insertions into a sorted accumulator keeps it sorted. -/
theorem btFoldl_sorted {α : Type} (l : List (Nat × α)) (acc : List (Nat × α))
    (hacc : acc.Pairwise (fun p q => p.1 < q.1)) :
    (l.foldl (fun m p => btInsert p.1 p.2 m) acc).Pairwise
      (fun p q => p.1 < q.1) := by
  induction l generalizing acc with
  | nil => exact hacc
  | cons p rest ih => exact ih _ (btInsert_sorted p.1 p.2 acc hacc)

/-- The collected `BTreeMap` has strictly increasing keys. -/
theorem btFromList_sorted {α : Type} (l : List (Nat × α)) :
    (btFromList l).Pairwise (fun p q => p.1 < q.1) :=
  btFoldl_sorted l [] (List.Pairwise.nil)

theorem btFoldl_mem {α : Type} (l : List (Nat × α)) (acc : List (Nat × α))
    (q : Nat × α) (hq : q ∈ l.foldl (fun m p => btInsert p.1 p.2 m) acc) :
    q ∈ acc ∨ q ∈ l := by
  induction l generalizing acc with
  | nil => exact Or.inl hq
  | cons p rest ih =>
    rcases ih (btInsert p.1 p.2 acc) hq with h | h
    · rcases List.mem_cons.mp (btInsert_subset p.1 p.2 acc h) with h' | h'
      · exact Or.inr (List.mem_cons.mpr (Or.inl (by rw [h'])))
      · exact Or.inl h'
    · exact Or.inr (List.mem_cons.mpr (Or.inr h))

/-- Every entry of the collected `BTreeMap` was one of the inserted pairs. -/
theorem btFromList_mem {α : Type} (l : List (Nat × α)) (q : Nat × α)
    (hq : q ∈ btFromList l) : q ∈ l := by
  rcases btFoldl_mem l [] q hq with h | h
  · cases h
  · exact h

theorem btInsert_keys_perm {α : Type} (k : Nat) (v : α) (m : List (Nat × α))
    (hk : k ∉ m.map Prod.fst) :
    ((btInsert k v m).map Prod.fst).Perm (k :: m.map Prod.fst) := by
  induction m with
  | nil => simp [btInsert]
  | cons p rest ih =>
    have hkp : ¬ k = p.1 := fun h => hk (by simp [h])
    have hkrest : k ∉ rest.map Prod.fst := fun h => hk (by simp [h])
    by_cases h1 : k < p.1
    · simp [btInsert, h1]
    · have hperm := ih hkrest
      simp only [btInsert, if_neg h1, if_neg hkp, List.map_cons]
      exact (hperm.cons p.1).trans (List.Perm.swap k p.1 (rest.map Prod.fst))

theorem btFoldl_length {α : Type} (l : List (Nat × α)) (acc : List (Nat × α))
    (h : (acc.map Prod.fst ++ l.map Prod.fst).Nodup) :
    (l.foldl (fun m p => btInsert p.1 p.2 m) acc).length =
      acc.length + l.length := by
  induction l generalizing acc with
  | nil => simp
  | cons p rest ih =>
    have hmid : ((p.1 :: (acc.map Prod.fst ++ rest.map Prod.fst))).Nodup := by
      refine (List.perm_middle).nodup ?_
      simpa using h
    have hp : p.1 ∉ acc.map Prod.fst := by
      intro hmem
      exact (List.nodup_cons.mp hmid).1 (List.mem_append.mpr (Or.inl hmem))
    have hlen : (btInsert p.1 p.2 acc).length = acc.length + 1 := by
      have hperm := btInsert_keys_perm p.1 p.2 acc hp
      have := hperm.length_eq
      simpa [List.length_map] using this
    have hnodup : ((btInsert p.1 p.2 acc).map Prod.fst ++
        rest.map Prod.fst).Nodup := by
      refine List.Perm.nodup ?_ hmid
      exact ((btInsert_keys_perm p.1 p.2 acc hp).append_right _).symm
    simp only [List.foldl_cons]
    rw [ih _ hnodup, hlen]
    simp [List.length_cons]
    omega

/-- When the inserted keys are pairwise distinct no entry is overwritten, so
the collected map has exactly one entry per inserted pair. -/
theorem btFromList_length {α : Type} (l : List (Nat × α))
    (h : (l.map Prod.fst).Nodup) : (btFromList l).length = l.length := by
  simpa [btFromList] using btFoldl_length l [] (by simpa using h)

theorem btInsert_append_of_lt {α : Type} (k : Nat) (v : α)
    (m : List (Nat × α)) (h : ∀ q ∈ m, q.1 < k) :
    btInsert k v m = m ++ [(k, v)] := by
  induction m with
  | nil => simp [btInsert]
  | cons p rest ih =>
    have hp : p.1 < k := h p (List.mem_cons_self p rest)
    have h1 : ¬ k < p.1 := by omega
    have h2 : ¬ k = p.1 := by omega
    simp only [btInsert, if_neg h1, if_neg h2, List.cons_append]
    rw [ih (fun q hq => h q (List.mem_cons.mpr (Or.inr hq)))]

theorem btFoldl_of_sorted {α : Type} (l : List (Nat × α))
    (acc : List (Nat × α)) (hl : l.Pairwise (fun p q => p.1 < q.1))
    (hcross : ∀ q ∈ acc, ∀ p ∈ l, q.1 < p.1) :
    l.foldl (fun m p => btInsert p.1 p.2 m) acc = acc ++ l := by
  induction l generalizing acc with
  | nil => simp
  | cons p rest ih =>
    rcases List.pairwise_cons.mp hl with ⟨hp, hrest⟩
    have hins : btInsert p.1 p.2 acc = acc ++ [p] := by
      rw [btInsert_append_of_lt p.1 p.2 acc
        (fun q hq => hcross q hq p (List.mem_cons_self p rest))]
    have hcross' : ∀ q ∈ acc ++ [p], ∀ r ∈ rest, q.1 < r.1 := by
      intro q hq r hr
      rcases List.mem_append.mp hq with h | h
      · exact hcross q h r (List.mem_cons.mpr (Or.inr hr))
      · rcases List.mem_singleton.mp h with rfl
        exact hp r hr
    simp only [List.foldl_cons]
    rw [hins, ih (acc ++ [p]) hrest hcross']
    simp

/-- Re-collecting an already strictly-key-sorted list leaves it unchanged. -/
theorem btFromList_of_sorted {α : Type} (l : List (Nat × α))
    (hl : l.Pairwise (fun p q => p.1 < q.1)) : btFromList l = l := by
  have := btFoldl_of_sorted l [] hl (by intro q hq; cases hq)
  simpa [btFromList] using this

/-- On a strictly-key-sorted association list, filtering by a key yields
exactly the looked-up entry (if any). -/
theorem filter_key_of_sorted {α : Type} (l : List (Nat × α))
    (hl : l.Pairwise (fun p q => p.1 < q.1)) (n : Nat) :
    l.filter (fun p => p.1 = n) =
      match btLookup l n with
      | some v => [(n, v)]
      | none => [] := by
  induction l with
  | nil => simp [btLookup]
  | cons p rest ih =>
    rcases List.pairwise_cons.mp hl with ⟨hp, hrest⟩
    by_cases h : p.1 = n
    · have hnone : rest.filter (fun q => q.1 = n) = [] := by
        rw [List.filter_eq_nil_iff]
        intro q hq
        have := hp q hq
        simp only [decide_eq_true_eq]
        omega
      have hpeq : p = (n, p.2) := by
        cases p
        simpa using h
      simp [List.filter_cons, btLookup, h, hnone]
      exact hpeq
    · simp [List.filter_cons, btLookup, h, ih hrest]

/-- `lastVal` over key-tagged values is the last list element matching the
key. -/
theorem lastVal_map_getLast {β : Type} (f : β → Nat) (n : Nat)
    (l : List β) :
    lastVal n (l.map (fun t => (f t, t))) =
      (l.filter (fun t => f t = n)).getLast? := by
  induction l with
  | nil => simp [lastVal]
  | cons t rest ih =>
    simp only [List.map_cons, lastVal, ih, List.filter_cons]
    by_cases h : f t = n
    · cases hrest : (rest.filter (fun t => f t = n)).getLast? with
      | some v => simp [List.getLast?_cons, hrest, h]
      | none => simp [List.getLast?_cons, hrest, h]
    · cases hrest : (rest.filter (fun t => f t = n)).getLast? with
      | some v => simp [hrest, h]
      | none => simp [hrest, h]

/-! ### Facts about the declared-index lookup -/

theorem lastIdxAux_bounds (k : Script × Nat) (base : Nat)
    (l : List (Script × Nat)) (i : Nat) (h : lastIdxAux k base l = some i) :
    base ≤ i ∧ i < base + l.length := by
  induction l generalizing base i with
  | nil => simp [lastIdxAux] at h
  | cons x rest ih =>
    simp only [lastIdxAux] at h
    cases hrest : lastIdxAux k (base + 1) rest with
    | some j =>
      rw [hrest] at h
      simp only [Option.some.injEq] at h
      subst h
      rcases ih (base + 1) j hrest with ⟨h1, h2⟩
      simp only [List.length_cons]
      omega
    | none =>
      rw [hrest] at h
      by_cases hx : x = k
      · simp only [hx, if_true, Option.some.injEq] at h
        subst h
        simp only [List.length_cons]
        omega
      · simp [hx] at h

theorem lastIdxAux_isSome (k : Script × Nat) (base : Nat)
    (l : List (Script × Nat)) :
    (lastIdxAux k base l).isSome = true ↔ k ∈ l := by
  induction l generalizing base with
  | nil => simp [lastIdxAux]
  | cons x rest ih =>
    simp only [lastIdxAux]
    cases hrest : lastIdxAux k (base + 1) rest with
    | some j =>
      have : k ∈ rest := (ih (base + 1)).mp (by simp [hrest])
      simp [this]
    | none =>
      have hnot : ¬ k ∈ rest := fun hmem => by
        have := (ih (base + 1)).mpr hmem
        simp [hrest] at this
      by_cases hx : x = k
      · simp [hx]
      · have hxk : ¬ k = x := fun h => hx h.symm
        simp [hx, hnot, hxk]

/-- A matched pair's index is within the declared ordering's length. -/
theorem indicesGet_lt_length (order : List (Script × Nat))
    (k : Script × Nat) (i : Nat) (h : indicesGet order k = some i) :
    i < order.length := by
  have := lastIdxAux_bounds k 0 order i h
  omega

/-- The lookup succeeds exactly for declared pairs. -/
theorem indicesGet_isSome_iff (order : List (Script × Nat))
    (k : Script × Nat) : (indicesGet order k).isSome = true ↔ k ∈ order :=
  lastIdxAux_isSome k 0 order

/-- Provided the declared ordering is not astronomically long (it cannot be:
its length is a Rust `usize`), an output is matched by the ordering iff its
assigned index is below the `usize::MAX` sentinel. -/
theorem assignIdx_lt_iff (order : List (Script × Nat)) (t : TxOut)
    (h : order.length ≤ USIZE_MAX) :
    assignIdx order t < USIZE_MAX ↔ (t.script_pubkey, t.value) ∈ order := by
  constructor
  · intro hlt
    by_contra hmem
    have : (indicesGet order (t.script_pubkey, t.value)) = none := by
      cases hi : indicesGet order (t.script_pubkey, t.value) with
      | none => rfl
      | some i =>
        exact absurd ((indicesGet_isSome_iff order _).mp (by simp [hi])) hmem
    simp [assignIdx, this] at hlt
  · intro hmem
    have hsome := (indicesGet_isSome_iff order _).mpr hmem
    cases hi : indicesGet order (t.script_pubkey, t.value) with
    | none => simp [hi] at hsome
    | some i =>
      have := indicesGet_lt_length order _ i hi
      simp only [assignIdx, hi, Option.getD_some]
      omega

/-! ### Structure of the reordered output list -/

/-- Every entry of the map collected inside `reorder_outputs` carries its own
assigned index as key, and its value is one of the produced outputs. -/
theorem reorder_entry_key (outputs : List TxOut) (order : List (Script × Nat))
    (p : Nat × TxOut)
    (hp : p ∈ btFromList (outputs.map (fun t => (assignIdx order t, t)))) :
    p.1 = assignIdx order p.2 ∧ p.2 ∈ outputs := by
  have hmem := btFromList_mem _ p hp
  rcases List.mem_map.mp hmem with ⟨t, ht, heq⟩
  cases heq
  exact ⟨rfl, ht⟩

/-- The reordered list is strictly sorted by assigned index. -/
theorem reorder_outputs_pairwise (outputs : List TxOut)
    (order : List (Script × Nat)) :
    (reorder_outputs outputs order).Pairwise
      (fun a b => assignIdx order a < assignIdx order b) := by
  unfold reorder_outputs
  rw [List.pairwise_map]
  have hs := btFromList_sorted (outputs.map (fun t => (assignIdx order t, t)))
  refine List.Pairwise.imp_of_mem ?_ hs
  intro p q hp hq hlt
  rcases reorder_entry_key outputs order p hp with ⟨hk, _⟩
  rcases reorder_entry_key outputs order q hq with ⟨hk', _⟩
  rw [← hk, ← hk']
  exact hlt

/-- Every output kept by `reorder_outputs` is one of the produced outputs. -/
theorem reorder_outputs_mem (outputs : List TxOut)
    (order : List (Script × Nat)) (t : TxOut)
    (ht : t ∈ reorder_outputs outputs order) : t ∈ outputs := by
  unfold reorder_outputs at ht
  rcases List.mem_map.mp ht with ⟨p, hp, hq⟩
  cases hq
  exact (reorder_entry_key outputs order p hp).2

theorem btLookup_btFromList_lastVal {α : Type} (l : List (Nat × α))
    (k : Nat) : btLookup (btFromList l) k = lastVal k l := by
  rw [btLookup_btFromList]
  cases hv : lastVal k l <;> simp

/-- Re-inserting an already reordered list changes nothing. -/
theorem reorder_outputs_of_pairwise (r : List TxOut)
    (order : List (Script × Nat))
    (hr : r.Pairwise (fun a b => assignIdx order a < assignIdx order b)) :
    reorder_outputs r order = r := by
  unfold reorder_outputs
  rw [btFromList_of_sorted _ (by rw [List.pairwise_map]; exact hr)]
  have hid : (Prod.snd ∘ fun txout : TxOut => (assignIdx order txout, txout)) = id := rfl
  rw [List.map_map, hid, List.map_id]

/-! ## Claims about `reorder_outputs` -/

/-- C1 (counterexample): the claim "output count is preserved exactly" fails.
With an empty declared ordering, both outputs are unmatched, both are
assigned the sentinel index `usize::MAX`, and collecting into the
`BTreeMap` keeps only the later one: two outputs in, one out. -/
theorem claim_C1_counterexample :
    ¬ (reorder_outputs [TxOut.mk [1] 1, TxOut.mk [2] 2] []).length =
      ([TxOut.mk [1] 1, TxOut.mk [2] 2] : List TxOut).length := by
  decide

/-- C1 (amended): `reorder_outputs` preserves the output count whenever no two
produced outputs are assigned the same ordering index — i.e. no two outputs
match the same declared `(script, amount)` pair and at most one output is
unmatched.  (Without that proviso colliding outputs are dropped, keeping only
the last per index.) -/
theorem claim_C1_output_count (outputs : List TxOut)
    (order : List (Script × Nat))
    (h : (outputs.map (assignIdx order)).Nodup) :
    (reorder_outputs outputs order).length = outputs.length := by
  unfold reorder_outputs
  rw [List.length_map, btFromList_length, List.length_map]
  simpa [List.map_map, Function.comp] using h

/-- Witness for C1 (amended) at a concrete input: one matched and one
unmatched output, distinct assigned indices, count preserved. -/
theorem claim_C1_output_count_witness :
    (reorder_outputs [TxOut.mk [7] 3, TxOut.mk [1] 5] [([1], 5)]).length = 2 :=
  claim_C1_output_count [TxOut.mk [7] 3, TxOut.mk [1] 5] [([1], 5)] (by decide)

/-- C2 (counterexample): the claim "every produced output matching a declared
pair appears at that pair's declared index" fails.  The single produced
output matches the declared pair at index 1, but the returned list has
length 1, so position 1 does not even exist: the output sits at position 0. -/
theorem claim_C2_counterexample :
    assignIdx [([1], 1), ([3], 2)] (TxOut.mk [3] 2) = 1 ∧
    (reorder_outputs [TxOut.mk [3] 2] [([1], 1), ([3], 2)])[1]? = none ∧
    (reorder_outputs [TxOut.mk [3] 2] [([1], 1), ([3], 2)])[0]? =
      some (TxOut.mk [3] 2) := by
  decide

/-- C2 (amended): in the returned list the kept outputs appear in strictly
increasing order of assigned index; every kept output is one of the produced
outputs; and (provided the declared ordering is no longer than `usize::MAX`,
which a Rust `Vec` cannot exceed) an output is matched by a declared pair
exactly when its assigned index is below the unmatched sentinel — hence all
kept matched outputs appear in declared-index order before all kept
unmatched outputs, rather than exactly at their declared positions. -/
theorem claim_C2_declared_order (outputs : List TxOut)
    (order : List (Script × Nat)) (h : order.length ≤ USIZE_MAX) :
    (reorder_outputs outputs order).Pairwise
      (fun a b => assignIdx order a < assignIdx order b) ∧
    (∀ t ∈ reorder_outputs outputs order, t ∈ outputs) ∧
    (∀ t ∈ reorder_outputs outputs order,
      ((t.script_pubkey, t.value) ∈ order ↔ assignIdx order t < USIZE_MAX)) := by
  refine ⟨reorder_outputs_pairwise outputs order,
    fun t ht => reorder_outputs_mem outputs order t ht, ?_⟩
  intro t _
  exact (assignIdx_lt_iff order t h).symm

/-- Witness for C2 (amended) at a concrete input. -/
theorem claim_C2_declared_order_witness :
    (reorder_outputs [TxOut.mk [9] 9, TxOut.mk [1] 5] [([1], 5)]).Pairwise
      (fun a b => assignIdx [([1], 5)] a < assignIdx [([1], 5)] b) ∧
    (∀ t ∈ reorder_outputs [TxOut.mk [9] 9, TxOut.mk [1] 5] [([1], 5)],
      t ∈ [TxOut.mk [9] 9, TxOut.mk [1] 5]) ∧
    (∀ t ∈ reorder_outputs [TxOut.mk [9] 9, TxOut.mk [1] 5] [([1], 5)],
      ((t.script_pubkey, t.value) ∈ [(([1] : Script), 5)] ↔
        assignIdx [([1], 5)] t < USIZE_MAX)) :=
  claim_C2_declared_order [TxOut.mk [9] 9, TxOut.mk [1] 5] [([1], 5)]
    (by decide)

/-- C8: applying `reorder_outputs` twice with the same declared ordering gives
the same list as applying it once: the first pass leaves the kept outputs
strictly sorted by assigned index, and a second collection of an already
sorted list is the identity. -/
theorem claim_C8_idempotent (outputs : List TxOut)
    (order : List (Script × Nat)) :
    reorder_outputs (reorder_outputs outputs order) order =
      reorder_outputs outputs order :=
  reorder_outputs_of_pairwise (reorder_outputs outputs order) order
    (reorder_outputs_pairwise outputs order)

/-- C10: for every assigned index `n`, the outputs kept at `n` are exactly the
last produced output whose assigned index is `n` (if any): colliding outputs
— several matching the same declared pair, or several unmatched — are
dropped except for the last one in produced order. -/
theorem claim_C10_last_output_per_index (outputs : List TxOut)
    (order : List (Script × Nat)) (n : Nat) :
    (reorder_outputs outputs order).filter (fun t => assignIdx order t = n) =
      ((outputs.filter (fun t => assignIdx order t = n)).getLast?).toList := by
  unfold reorder_outputs
  rw [List.filter_map]
  have hcong : (btFromList (outputs.map (fun t => (assignIdx order t, t)))).filter
        ((fun t => decide (assignIdx order t = n)) ∘ Prod.snd) =
      (btFromList (outputs.map (fun t => (assignIdx order t, t)))).filter
        (fun p => p.1 = n) := by
    apply List.filter_congr
    intro p hp
    rcases reorder_entry_key outputs order p hp with ⟨hk, _⟩
    simp [Function.comp, hk]
  rw [hcong, filter_key_of_sorted _ (btFromList_sorted _) n,
    btLookup_btFromList_lastVal,
    lastVal_map_getLast (fun t => assignIdx order t) n outputs]
  cases (outputs.filter (fun t => assignIdx order t = n)).getLast? with
  | some v => simp
  | none => simp

/-! ## Bitcoin RPC client (`romeo/src/bitcoin_client.rs`)

Async calls are embedded as pure functions over the environment's responses:
each `self.execute(..)` returns `anyhow::Result<bitcoincore_rpc::Result<T>>`
(outer transport/construction failure, inner RPC-level result), embedded as
`Except String (Except BtcRpcError T)`.  The outer `?` propagates the outer
error. -/

/-- Modelled from the spec: `TransactionStatus` lives in romeo's event module,
which is not among the sources; §3 of the specification gives its three
variants Broadcasted, Confirmed, Rejected. -/
inductive TransactionStatus where
  | Broadcasted
  | Confirmed
  | Rejected
  deriving DecidableEq, Repr

/-- The `bitcoincore_rpc::jsonrpc::Error` variants `get_block` matches on:
an RPC-level error object (with its integer code) or a transport failure. -/
inductive JsonRpcError where
  | rpc (code : Int) (message : String)
  | transportErr (message : String)
  deriving DecidableEq, Repr

/-- `bitcoincore_rpc::Error`: the `JsonRpc` constructor the source matches,
and a catch-all for every other variant. -/
inductive BtcRpcError where
  | jsonRpc (e : JsonRpcError)
  | otherErr (message : String)
  deriving DecidableEq, Repr

/-- `GetRawTransactionResult`: the one field `get_tx_status` reads
(`confirmations: Option<u32>`). -/
structure RawTxInfo where
  confirmations : Option Nat
  deriving DecidableEq, Repr

/-- Outcome of the status match: a returned status, or the
`panic!("Transaction cannot be both confirmed and pending")` arm, which never
returns a status value. -/
inductive TxStatusOutcome where
  | status (s : TransactionStatus)
  | fatal (message : String)
  deriving DecidableEq, Repr

/-- `is_confirmed`:
`.ok().and_then(|tx| tx.confirmations).map(|c| c > 0).unwrap_or_default()` —
an RPC-level error, a missing confirmation count, and zero confirmations all
yield `false`. -/
def is_confirmed_of (res : Except BtcRpcError RawTxInfo) : Bool :=
  match res with
  | .ok tx =>
    match tx.confirmations with
    | some c => decide (0 < c)
    | none => false
  | .error _ => false

/-- `in_mempool`: `.is_ok()` on the mempool-entry query. -/
def in_mempool_of (res : Except BtcRpcError Unit) : Bool :=
  match res with
  | .ok _ => true
  | .error _ => false

/-- The four-way `match (is_confirmed, in_mempool)` in `get_tx_status`
(`romeo/src/bitcoin_client.rs:136-143`). -/
def resolve_status : Bool → Bool → TxStatusOutcome
  | true, false => .status .Confirmed
  | false, true => .status .Broadcasted
  | false, false => .status .Rejected
  | true, true => .fatal "Transaction cannot be both confirmed and pending"

/-- `get_tx_status` (`romeo/src/bitcoin_client.rs:115-144`): the two queries'
results are passed in; the outer `?` on each `execute` propagates
transport-level failure, the inner RPC results feed the boolean extraction
and the four-way match. -/
def get_tx_status (txInfoQ : Except String (Except BtcRpcError RawTxInfo))
    (mempoolQ : Except String (Except BtcRpcError Unit)) :
    Except String TxStatusOutcome :=
  match txInfoQ with
  | .error e => .error e
  | .ok txRes =>
    match mempoolQ with
    | .error e => .error e
    | .ok mpRes => .ok (resolve_status (is_confirmed_of txRes) (in_mempool_of mpRes))

/-- C3: with both queries transport-successful, `get_tx_status` returns
exactly the four-way mapping of the two observed booleans:
(false, false) ↦ Rejected, (false, true) ↦ Broadcasted,
(true, false) ↦ Confirmed, and (true, true) reaches the `panic!` arm, a
distinct fatal outcome that is never equal to a returned status. -/
theorem claim_C3_status_mapping :
    (∀ (txRes : Except BtcRpcError RawTxInfo)
        (mpRes : Except BtcRpcError Unit),
      get_tx_status (.ok txRes) (.ok mpRes) =
        .ok (resolve_status (is_confirmed_of txRes) (in_mempool_of mpRes))) ∧
    resolve_status false false = .status .Rejected ∧
    resolve_status false true = .status .Broadcasted ∧
    resolve_status true false = .status .Confirmed ∧
    resolve_status true true =
      .fatal "Transaction cannot be both confirmed and pending" ∧
    (∀ s, resolve_status true true ≠ .status s) := by
  refine ⟨fun txRes mpRes => rfl, rfl, rfl, rfl, rfl, ?_⟩
  intro s h
  simp [resolve_status] at h

/-- C9: an RPC-level error from the transaction-info query yields
`is_confirmed = false`, an RPC-level error from the mempool query yields
`in_mempool = false`; neither is propagated, so a transaction unknown to the
node on both queries is classified Rejected rather than an error. -/
theorem claim_C9_rpc_error_defaults (e1 e2 : BtcRpcError) :
    is_confirmed_of (.error e1) = false ∧
    in_mempool_of (.error e2) = false ∧
    get_tx_status (.ok (.error e1)) (.ok (.error e2)) =
      .ok (.status .Rejected) := by
  exact ⟨rfl, rfl, rfl⟩

/-! ### Block polling (`get_block`) -/

/-- `BLOCK_POLLING_INTERVAL = Duration::from_secs(5)`
(`romeo/src/bitcoin_client.rs:27`), in seconds. -/
def BLOCK_POLLING_INTERVAL : Nat := 5

/-- A Bitcoin block, opaque to this client logic. -/
abbrev BtcBlock := Nat

/-- Result of the polling loop: completion or failure after a number of
`BLOCK_POLLING_INTERVAL` sleeps, or still pending after the scripted
responses are exhausted (the loop has no bound of its own). -/
inductive LoopResult (α : Type) where
  | done (sleeps : Nat) (a : α)
  | failed (sleeps : Nat) (e : String)
  | pending
  deriving DecidableEq, Repr

/-- One `sleep(BLOCK_POLLING_INTERVAL)` before whatever the rest of the loop
does. -/
def sleepThen {α : Type} : LoopResult α → LoopResult α
  | .done n a => .done (n + 1) a
  | .failed n e => .failed (n + 1) e
  | .pending => .pending

/-- `n` sleeps before whatever the rest of the loop does. -/
def addSleeps {α : Type} : Nat → LoopResult α → LoopResult α
  | 0, r => r
  | n + 1, r => sleepThen (addSleeps n r)

/-- Modelled from the external error's `Display`: the string carried into
`anyhow` when a `bitcoincore_rpc` error is propagated with `?`. Its exact
text is irrelevant to the claims. -/
def rpcErrString : BtcRpcError → String
  | .jsonRpc (.rpc code msg) => "JSON-RPC error " ++ toString code ++ ": " ++ msg
  | .jsonRpc (.transportErr msg) => "transport error: " ++ msg
  | .otherErr msg => msg

/-- The `loop` in `get_block` (`romeo/src/bitcoin_client.rs:151-185`), run
against the environment's scripted responses to the repeated
`get_block_hash` query.  An outer (`execute`-level) error propagates with
`?`; an RPC error with code `-8` and a JSON-RPC transport error fall through
to the sleep and retry; any other error returns immediately wrapped as
"Error fetching Bitcoin block"; a hash breaks out of the loop. -/
def get_block_hash_loop :
    List (Except String (Except BtcRpcError Nat)) → LoopResult Nat
  | [] => .pending
  | r :: rest =>
    match r with
    | .error e => .failed 0 e
    | .ok (.ok hash) => .done 0 hash
    | .ok (.error (.jsonRpc (.rpc code msg))) =>
      if code = -8 then sleepThen (get_block_hash_loop rest)
      else .failed 0 ("Error fetching Bitcoin block: " ++ msg)
    | .ok (.error (.jsonRpc (.transportErr _))) =>
      sleepThen (get_block_hash_loop rest)
    | .ok (.error (.otherErr msg)) =>
      .failed 0 ("Error fetching Bitcoin block: " ++ msg)

/-- `get_block` (`romeo/src/bitcoin_client.rs:147-197`): poll for the hash,
then fetch the full block at that hash (both layers of `?` propagate) and
return it paired with the requested height. -/
def get_block (block_height : Nat)
    (hashResponses : List (Except String (Except BtcRpcError Nat)))
    (blockFetch : Nat → Except String (Except BtcRpcError BtcBlock)) :
    LoopResult (Nat × BtcBlock) :=
  match get_block_hash_loop hashResponses with
  | .pending => .pending
  | .failed n e => .failed n e
  | .done n block_hash =>
    match blockFetch block_hash with
    | .error e => .failed n e
    | .ok (.error e) => .failed n (rpcErrString e)
    | .ok (.ok block) => .done n (block_height, block)

/-- The responses the loop retries on: RPC error code `-8` ("block not
found") and JSON-RPC transport failures. -/
def isRetryableResp : Except String (Except BtcRpcError Nat) → Bool
  | .ok (.error (.jsonRpc (.rpc code _))) => decide (code = -8)
  | .ok (.error (.jsonRpc (.transportErr _))) => true
  | _ => false

theorem addSleeps_done {α : Type} (n k : Nat) (a : α) :
    addSleeps n (.done k a) = .done (k + n) a := by
  induction n with
  | zero => rfl
  | succ m ih =>
    rw [addSleeps, ih]
    rfl

theorem addSleeps_pending {α : Type} (n : Nat) :
    addSleeps n (.pending : LoopResult α) = .pending := by
  induction n with
  | zero => rfl
  | succ m ih =>
    rw [addSleeps, ih]
    rfl

/-- Retryable responses only add sleeps in front of whatever the rest of the
script produces. -/
theorem get_block_hash_loop_append
    (retries rest : List (Except String (Except BtcRpcError Nat)))
    (hr : ∀ r ∈ retries, isRetryableResp r = true) :
    get_block_hash_loop (retries ++ rest) =
      addSleeps retries.length (get_block_hash_loop rest) := by
  induction retries with
  | nil => simp [addSleeps]
  | cons r rs ih =>
    have hrr : isRetryableResp r = true := hr r (List.mem_cons_self r rs)
    have hrs : ∀ q ∈ rs, isRetryableResp q = true :=
      fun q hq => hr q (List.mem_cons.mpr (Or.inr hq))
    match r with
    | .error e => simp [isRetryableResp] at hrr
    | .ok (.ok hash) => simp [isRetryableResp] at hrr
    | .ok (.error (.jsonRpc (.rpc code msg))) =>
      have hcode : code = -8 := by simpa [isRetryableResp] using hrr
      simp [get_block_hash_loop, hcode, ih hrs, addSleeps]
    | .ok (.error (.jsonRpc (.transportErr msg))) =>
      simp [get_block_hash_loop, ih hrs, addSleeps]
    | .ok (.error (.otherErr msg)) => simp [isRetryableResp] at hrr

/-- C4: (i) the polling interval is the fixed 5 seconds; (ii) a script of
retryable responses alone (not-found code `-8` or transport failure) leaves
the loop still pending, for any number of them — the retry is unbounded;
(iii) after `n` retryable responses a hash response ends the loop with
exactly `n` sleeps; (iv) `get_block` then fetches the full block for that
hash and returns it with the requested height; (v) any RPC error with a code
other than `-8` fails the call immediately — zero sleeps, no retries,
whatever responses follow — propagating the wrapped error. -/
theorem claim_C4_get_block_retries (block_height : Nat)
    (retries rest : List (Except String (Except BtcRpcError Nat)))
    (h : Nat) (blockFetch : Nat → Except String (Except BtcRpcError BtcBlock))
    (b : BtcBlock)
    (hr : ∀ r ∈ retries, isRetryableResp r = true)
    (hb : blockFetch h = .ok (.ok b)) :
    BLOCK_POLLING_INTERVAL = 5 ∧
    get_block_hash_loop retries = .pending ∧
    get_block_hash_loop (retries ++ .ok (.ok h) :: rest) =
      .done retries.length h ∧
    get_block block_height (retries ++ .ok (.ok h) :: rest) blockFetch =
      .done retries.length (block_height, b) ∧
    (∀ (code : Int) (msg : String) rest2, ¬ code = -8 →
      get_block_hash_loop (.ok (.error (.jsonRpc (.rpc code msg))) :: rest2) =
        .failed 0 ("Error fetching Bitcoin block: " ++ msg)) := by
  have hpend : get_block_hash_loop retries = .pending := by
    have := get_block_hash_loop_append retries [] hr
    simpa [get_block_hash_loop, addSleeps_pending] using this
  have hdone : get_block_hash_loop (retries ++ .ok (.ok h) :: rest) =
      .done retries.length h := by
    rw [get_block_hash_loop_append retries (.ok (.ok h) :: rest) hr]
    simp [get_block_hash_loop, addSleeps_done]
  refine ⟨rfl, hpend, hdone, ?_, ?_⟩
  · simp [get_block, hdone, hb]
  · intro code msg rest2 hcode
    simp [get_block_hash_loop, hcode]

/-- Witness for C4 at a concrete input: one transport failure and one
not-found response, then the hash; the block is returned after exactly two
sleeps. -/
theorem claim_C4_get_block_retries_witness :
    get_block 10
      ([.ok (.error (.jsonRpc (.transportErr "io"))),
        .ok (.error (.jsonRpc (.rpc (-8) "not found")))] ++
        .ok (.ok 42) :: [])
      (fun _ => .ok (.ok 7)) = .done 2 (10, 7) :=
  (claim_C4_get_block_retries 10
    [.ok (.error (.jsonRpc (.transportErr "io"))),
     .ok (.error (.jsonRpc (.rpc (-8) "not found")))] [] 42
    (fun _ => .ok (.ok 7)) 7 (by decide) rfl).2.2.2.1

/-! ### Client construction (`Client::new`) -/

/-- The `url` crate's parsed view of the configured node URL: the pieces
`Client::new` inspects (`username()`, `password()`) and the textual form
interpolated into the error messages (`Display`). -/
structure UrlModel where
  username : String
  password : Option String
  display : String
  deriving DecidableEq, Repr

/-- `Client::new` (`romeo/src/bitcoin_client.rs:46-79`): wallet creation
happens first (its `?` propagates; the wallet itself is an external
collaborator, passed as a result), then an empty username and then a missing
password each abort construction with an `anyhow!` message interpolating the
URL. -/
def Client_new (walletRes : Except String Unit) (url : UrlModel) :
    Except String Unit :=
  match walletRes with
  | .error e => .error e
  | .ok _ =>
    if url.username = "" then
      .error ("Username in " ++ url.display ++ " is empty")
    else if url.password = none then
      .error ("Password in " ++ url.display ++ " is empty")
    else .ok ()

/-- C7: once the wallet collaborator succeeds, `Client::new` fails exactly
when the URL's username is empty or its password is absent; the username
failure and the password failure each name the missing credential and
interpolate the offending URL, and the two messages are distinct. -/
theorem claim_C7_credential_validation (walletRes : Except String Unit)
    (url : UrlModel) (hw : walletRes = .ok ()) :
    ((∃ e, Client_new walletRes url = .error e) ↔
      (url.username = "" ∨ url.password = none)) ∧
    (url.username = "" →
      Client_new walletRes url =
        .error ("Username in " ++ url.display ++ " is empty")) ∧
    (¬ url.username = "" → url.password = none →
      Client_new walletRes url =
        .error ("Password in " ++ url.display ++ " is empty")) ∧
    ("Username in " ++ url.display ++ " is empty") ≠
      ("Password in " ++ url.display ++ " is empty") := by
  subst hw
  refine ⟨?_, ?_, ?_, ?_⟩
  · constructor
    · rintro ⟨e, he⟩
      by_cases hu : url.username = ""
      · exact Or.inl hu
      · by_cases hp : url.password = none
        · exact Or.inr hp
        · simp [Client_new, hu, hp] at he
    · rintro (hu | hp)
      · exact ⟨"Username in " ++ url.display ++ " is empty",
          by simp [Client_new, hu]⟩
      · by_cases hu : url.username = ""
        · exact ⟨"Username in " ++ url.display ++ " is empty",
            by simp [Client_new, hu]⟩
        · exact ⟨"Password in " ++ url.display ++ " is empty",
            by simp [Client_new, hu, hp]⟩
  · intro hu
    simp [Client_new, hu]
  · intro hu hp
    simp [Client_new, hu, hp]
  · intro hcontra
    have h2 := congrArg String.data hcontra
    simp [String.data_append] at h2

/-- Witness for C7 at a concrete input: empty username, wallet created. -/
theorem claim_C7_credential_validation_witness :
    Client_new (.ok ()) (UrlModel.mk "" none "http://host/") =
      .error ("Username in " ++ "http://host/" ++ " is empty") :=
  (claim_C7_credential_validation (.ok ())
    (UrlModel.mk "" none "http://host/") rfl).2.1 rfl

/-! ## Stacks address derivation (`stacks-core/src/address.rs`)

The crypto primitives (`SHA256Hash::new`, `Hash160::new`) and the bitcoin
script `Builder`'s push encodings live in modules that are external to these
sources; they enter as function parameters.  Public keys are represented by
their `serialize()`d compressed bytes. -/

/-- `AddressVersion` (`stacks-core/src/address.rs:18-23`). -/
inductive AddressVersion where
  | MainnetSingleSig
  | MainnetMultiSig
  | TestnetSingleSig
  | TestnetMultiSig
  deriving DecidableEq, Repr

/-- The `#[repr(u8)]` discriminants of `AddressVersion`. -/
def addressVersionCode : AddressVersion → Nat
  | .MainnetSingleSig => 22
  | .MainnetMultiSig => 20
  | .TestnetSingleSig => 26
  | .TestnetMultiSig => 21

/-- `AddressHashMode` (`stacks-core/src/address.rs:33-39`). -/
inductive AddressHashMode where
  | SerializeP2PKH
  | SerializeP2SH
  | SerializeP2WPKH
  | SerializeP2WSH
  deriving DecidableEq, Repr

/-- The `StacksError::InvalidArguments` error used by policy validation. -/
inductive StacksErr where
  | InvalidArguments (message : String)
  deriving DecidableEq, Repr

/-- `StacksAddress`: version tag plus 20-byte hash. -/
structure StacksAddress where
  version : AddressVersion
  hash : List Nat
  deriving DecidableEq, Repr

/-- `hash_p2pkh` (`stacks-core/src/address.rs:134-136`):
`Hash160::new(key.serialize())`. -/
def hash_p2pkh (hash160 : List Nat → List Nat) (key : List Nat) : List Nat :=
  hash160 key

/-- `hash_p2sh` (`stacks-core/src/address.rs:138-154`): the script `Builder`
is external; its `push_int`/`push_slice` byte encodings are parameters, each
appending its encoding to the script. -/
def hash_p2sh (hash160 : List Nat → List Nat)
    (pushIntBytes : Int → List Nat) (pushSliceBytes : List Nat → List Nat)
    (num_sigs : Nat) (pub_keys : List (List Nat)) : List Nat :=
  let script :=
    pushIntBytes (num_sigs : Int) ++ (pub_keys.map pushSliceBytes).flatten ++
      pushIntBytes (pub_keys.length : Int) ++ [174]
  hash160 script

/-- `hash_p2wpkh` (`stacks-core/src/address.rs:156-167`): the 22-byte witness
program `0x00 ∥ len ∥ Hash160(key)`, hashed again. -/
def hash_p2wpkh (hash160 : List Nat → List Nat) (key : List Nat) : List Nat :=
  let key_hash := hash160 key
  hash160 (([0] ++ [key_hash.length % 256]) ++ key_hash)

/-- `hash_p2wsh` (`stacks-core/src/address.rs:171-194`), with the `u8` casts
(`as u8`, wrapping `+ 80`) made explicit as `% 256`.  The `for` loop pushing
each key's length byte and bytes is a fold over the key list. -/
def hash_p2wsh (sha256 hash160 : List Nat → List Nat)
    (num_sigs : Nat) (pub_keys : List (List Nat)) : List Nat :=
  let script0 : List Nat := [(num_sigs % 256 + 80) % 256]
  let script1 :=
    pub_keys.foldl (fun s bytes => (s ++ [bytes.length % 256]) ++ bytes) script0
  let script := (script1 ++ [(pub_keys.length % 256 + 80) % 256]) ++ [174]
  let digest := sha256 script
  let buff := ([0] ++ [digest.length % 256]) ++ digest
  hash160 buff

/-- The multi-sig segwit derivation exactly as §4.1 of the specification
words it: witness script `(80+threshold) ∥ (len(key) ∥ key)* ∥ (80+count) ∥
174`; program `0x00 0x20 ∥ SHA256(witness script)`; result its `Hash160`. -/
def hash_p2wsh_spec (sha256 hash160 : List Nat → List Nat)
    (threshold : Nat) (keys : List (List Nat)) : List Nat :=
  let wscript :=
    (80 + threshold) ::
      ((keys.map (fun k => k.length :: k)).flatten ++ [80 + keys.length, 174])
  hash160 (0 :: 32 :: sha256 wscript)

/-- `StacksAddress::from_public_keys` (`stacks-core/src/address.rs:60-99`).
`public_keys[0]` is embedded as `headD []`; it is only reached in the
single-sig modes, whose guard has already forced exactly one key. -/
def StacksAddress_from_public_keys (sha256 hash160 : List Nat → List Nat)
    (pushIntBytes : Int → List Nat) (pushSliceBytes : List Nat → List Nat)
    (version : AddressVersion) (public_keys : List (List Nat))
    (signatures : Nat) (hash_mode : AddressHashMode) :
    Except StacksErr StacksAddress :=
  let public_key_count := public_keys.length
  if public_key_count < signatures then
    .error (.InvalidArguments "Cannot require more signatures than public keys")
  else if (hash_mode = .SerializeP2PKH ∨ hash_mode = .SerializeP2WPKH) ∧
      public_key_count ≠ 1 then
    .error (.InvalidArguments "Cannot use more than one public key for this hash mode")
  else if (hash_mode = .SerializeP2PKH ∨ hash_mode = .SerializeP2WPKH) ∧
      signatures ≠ 1 then
    .error (.InvalidArguments "Cannot require more than one signature for this hash mode")
  else
    .ok (StacksAddress.mk version
      (match hash_mode with
        | .SerializeP2PKH => hash_p2pkh hash160 (public_keys.headD [])
        | .SerializeP2SH =>
          hash_p2sh hash160 pushIntBytes pushSliceBytes signatures public_keys
        | .SerializeP2WPKH => hash_p2wpkh hash160 (public_keys.headD [])
        | .SerializeP2WSH => hash_p2wsh sha256 hash160 signatures public_keys))

theorem foldl_append_each {β : Type} (f : β → List Nat) (l : List β)
    (init : List Nat) :
    l.foldl (fun s b => s ++ f b) init = init ++ (l.map f).flatten := by
  induction l generalizing init with
  | nil => simp
  | cons b rest ih =>
    simp [List.foldl_cons, ih, List.append_assoc]

/-- C5: for a non-empty key list passing policy validation (threshold at most
the key count) whose sizes fit a byte (as real compressed keys and realistic
policies do) and with SHA-256 producing 32-byte digests, the computed
`hash_p2wsh` coincides byte for byte with the specification's formula. -/
theorem claim_C5_hash_p2wsh_spec (sha256 hash160 : List Nat → List Nat)
    (num_sigs : Nat) (pub_keys : List (List Nat))
    (hne : 0 < pub_keys.length)
    (hpol : num_sigs ≤ pub_keys.length)
    (hcount : pub_keys.length + 80 < 256)
    (hkeys : ∀ k ∈ pub_keys, k.length < 256)
    (hsha : ∀ x, (sha256 x).length = 32) :
    hash_p2wsh sha256 hash160 num_sigs pub_keys =
      hash_p2wsh_spec sha256 hash160 num_sigs pub_keys := by
  have hsig : (num_sigs % 256 + 80) % 256 = 80 + num_sigs := by omega
  have hcnt : (pub_keys.length % 256 + 80) % 256 = 80 + pub_keys.length := by
    omega
  have hmap : pub_keys.map (fun k => [k.length % 256] ++ k) =
      pub_keys.map (fun k => k.length :: k) := by
    apply List.map_congr_left
    intro k hk
    have := hkeys k hk
    have hlen : k.length % 256 = k.length := Nat.mod_eq_of_lt this
    simp [hlen]
  have hfold := foldl_append_each (fun k => [k.length % 256] ++ k) pub_keys
    [(num_sigs % 256 + 80) % 256]
  have hscript :
      ((pub_keys.foldl (fun s bytes => (s ++ [bytes.length % 256]) ++ bytes)
          [(num_sigs % 256 + 80) % 256] ++
        [(pub_keys.length % 256 + 80) % 256]) ++ [174]) =
      (80 + num_sigs) ::
        ((pub_keys.map (fun k => k.length :: k)).flatten ++
          [80 + pub_keys.length, 174]) := by
    have hfold' : pub_keys.foldl
        (fun s bytes => (s ++ [bytes.length % 256]) ++ bytes)
        [(num_sigs % 256 + 80) % 256] =
        [(num_sigs % 256 + 80) % 256] ++
          (pub_keys.map (fun k => [k.length % 256] ++ k)).flatten := by
      rw [← hfold]
      congr 1
      funext s bytes
      simp [List.append_assoc]
    rw [hfold', hmap, hsig, hcnt]
    simp
  unfold hash_p2wsh hash_p2wsh_spec
  simp only
  rw [hscript]
  have hdig : (sha256 ((80 + num_sigs) ::
      ((pub_keys.map (fun k => k.length :: k)).flatten ++
        [80 + pub_keys.length, 174]))).length % 256 = 32 := by
    rw [hsha]
  rw [hdig]
  simp

/-- Witness for C5 at a concrete input: threshold 1, one 2-byte key, a
constant 32-byte "SHA-256", and the identity "Hash160". -/
theorem claim_C5_hash_p2wsh_spec_witness :
    hash_p2wsh (fun _ => List.replicate 32 1) (fun x => x) 1 [[5, 6]] =
      hash_p2wsh_spec (fun _ => List.replicate 32 1) (fun x => x) 1 [[5, 6]] :=
  claim_C5_hash_p2wsh_spec (fun _ => List.replicate 32 1) (fun x => x) 1
    [[5, 6]] (by decide) (by decide) (by decide) (by decide)
    (fun x => by simp)

/-- C6: `from_public_keys` returns an `InvalidArguments` policy error exactly
when the requested signature count exceeds the number of supplied keys, or a
single-sig hash mode (P2PKH, P2WPKH) is used with a key count other than 1
or a signature count other than 1; every other input yields an address with
no error. -/
theorem claim_C6_policy_validation (sha256 hash160 : List Nat → List Nat)
    (pushIntBytes : Int → List Nat) (pushSliceBytes : List Nat → List Nat)
    (version : AddressVersion) (public_keys : List (List Nat))
    (signatures : Nat) (hash_mode : AddressHashMode) :
    (StacksAddress_from_public_keys sha256 hash160 pushIntBytes
        pushSliceBytes version public_keys signatures hash_mode).isOk =
      false ↔
    (public_keys.length < signatures ∨
      ((hash_mode = .SerializeP2PKH ∨ hash_mode = .SerializeP2WPKH) ∧
        (public_keys.length ≠ 1 ∨ signatures ≠ 1))) := by
  by_cases h1 : public_keys.length < signatures
  · simp [StacksAddress_from_public_keys, h1, Except.isOk, Except.toBool]
  · by_cases h2 : hash_mode = .SerializeP2PKH ∨ hash_mode = .SerializeP2WPKH
    · by_cases h3 : public_keys.length ≠ 1
      · simp [StacksAddress_from_public_keys, h1, h2, h3, Except.isOk,
          Except.toBool]
      · by_cases h4 : signatures ≠ 1
        · simp [StacksAddress_from_public_keys, h1, h2, h3, h4, Except.isOk,
            Except.toBool]
        · simp [StacksAddress_from_public_keys, h1, h2, h3, h4, Except.isOk,
            Except.toBool]
    · simp [StacksAddress_from_public_keys, h1, h2, Except.isOk, Except.toBool]
